import Mathlib

/-!
# generic-validator: a shallow embedding of `pkg/validator/validator.go`

The Go package offers `ApplyValidators`, `BindValidators` and the map helpers
`Map`, `Every`, `Some`, `Filter`, `Reduce`.

Modelling choices.

* A Go `error` value is `Option String`: `none` is the `nil` error and
  `some msg` is an error carrying the message `msg`.
* A Go slice is a `List`; a `nil` slice and an empty slice are both `[]`
  (both have `len` zero).
* A Go `map[K]V` is the list of its entries, written in the order in which a
  `range` statement enumerates them in the run under consideration.  Go leaves
  that order unspecified, so a statement that must hold "whatever the order"
  is stated for every permutation of the entry list.  A list is a well-formed
  map when its keys are pairwise distinct (`GoMap.WF`).  Lookup is
  `GoMap.get?` (`v, ok := m[k]`), assignment is `GoMap.set` (`m[k] = v`) and
  `len(m)` is `GoMap.len`.  Keys are compared with a decidable equality, as
  for every Go key type whose `==` is reflexive (floating-point `NaN` keys are
  outside the model).
* Validators and the callbacks handed to the helpers are total, side-effect
  free functions.
-/

namespace GenericValidator

/-! ## Go maps -/

/-- A Go `map[K]V`: its entries in the enumeration order of the current run. -/
abbrev GoMap (K : Type) (V : Type) := List (K × V)

namespace GoMap

variable {K V : Type}

/-- The keys of a map, in enumeration order. -/
def keys (m : GoMap K V) : List K := m.map Prod.fst

/-- A list of entries is a well-formed map when no key occurs twice. -/
def WF (m : GoMap K V) : Prop := (keys m).Nodup

instance (m : GoMap K V) [DecidableEq K] : Decidable (WF m) :=
  inferInstanceAs (Decidable (keys m).Nodup)

/-- The comma-ok lookup `v, ok := m[k]`: `some v` when `ok`, otherwise `none`. -/
def get? [DecidableEq K] : GoMap K V → K → Option V
  | [], _ => none
  | (k', v') :: rest, k => if k' = k then some v' else get? rest k

/-- The assignment `m[k] = v`: overwrite the entry of `k`, or add a new one. -/
def set [DecidableEq K] : GoMap K V → K → V → GoMap K V
  | [], k, v => [(k, v)]
  | (k', v') :: rest, k, v =>
    if k' = k then (k', v) :: rest else (k', v') :: set rest k v

/-- The builtin `len(m)`: the number of entries. -/
def len (m : GoMap K V) : Nat := m.length

/-- The common shape of the map-building loops of `validator.go`: range over
`m` and, for each entry on which `g` yields a value, assign that value under
the entry's key in the accumulated map. Used to reason about `BindValidators`,
`Map` and `Filter` at once. -/
def collect {W : Type} [DecidableEq K] (g : K × V → Option W)
    (acc : GoMap K W) (m : GoMap K V) : GoMap K W :=
  m.foldl (fun r entry =>
    match g entry with
    | some w => r.set entry.1 w
    | none => r) acc

end GoMap

/-! ## The types of `validator.go` -/

/-- A Go `error`: `none` is `nil`, `some msg` carries a message. -/
abbrev GoError := Option String

/-- The Go type `Validator[T]`, that is `func(T) (bool, error)`. -/
abbrev Validator (T : Type) := T → Bool × GoError

/-- The Go type `Validators[T]`, that is `[]Validator[T]`. -/
abbrev Validators (T : Type) := List (Validator T)

/-- The Go struct `ValidatedField[T]`. -/
structure ValidatedField (T : Type) where
  Value : T
  IsValid : Bool
  Errors : List GoError
  deriving DecidableEq, Repr

/-! ## The functions of `validator.go` -/

/-- One iteration of the loop body of `ApplyValidators`. -/
def applyStep {T : Type} (value : T) (validatedField : ValidatedField T)
    (validator : Validator T) : ValidatedField T :=
  match validator value with
  | (ok, err) =>
    if !ok then
      { validatedField with IsValid := false, Errors := validatedField.Errors ++ [err] }
    else validatedField

/-- The Go function `ApplyValidators`: start from a valid field without errors
and run the loop body once per validator, in slice order. -/
def ApplyValidators {T : Type} (validators : Validators T) (value : T) : ValidatedField T :=
  validators.foldl (applyStep value) { Value := value, IsValid := true, Errors := [] }

/-- One iteration of the loop body of the closure returned by `BindValidators`. -/
def bindStep {K T : Type} [DecidableEq K] (dataMap : GoMap K T)
    (validatedFieldMap : GoMap K (ValidatedField T))
    (entry : K × Validators T) : GoMap K (ValidatedField T) :=
  match dataMap.get? entry.1 with
  | some data => validatedFieldMap.set entry.1 (ApplyValidators entry.2 data)
  | none => validatedFieldMap

/-- The Go function `BindValidators`, curried as in the source: the closure it
returns ranges over `validatorsMap` and fills a fresh map. -/
def BindValidators {K T : Type} [DecidableEq K] (validatorsMap : GoMap K (Validators T)) :
    GoMap K T → GoMap K (ValidatedField T) :=
  fun dataMap => validatorsMap.foldl (bindStep dataMap) []

/-- The Go function `Map`. -/
def Map {K V : Type} [DecidableEq K] (dataMap : GoMap K V) (fn : V → V) : GoMap K V :=
  dataMap.foldl (fun rmap entry => rmap.set entry.1 (fn entry.2)) []

/-- The Go function `Every`: return `false` at the first value failing `fn`. -/
def Every {K V : Type} : GoMap K V → (V → Bool) → Bool
  | [], _ => true
  | (_, value) :: rest, fn => if !fn value then false else Every rest fn

/-- The Go function `Some`: return `true` at the first value satisfying `fn`. -/
def Some {K V : Type} : GoMap K V → (V → Bool) → Bool
  | [], _ => false
  | (_, value) :: rest, fn => if fn value then true else Some rest fn

/-- The Go function `Filter`. -/
def Filter {K V : Type} [DecidableEq K] (dataMap : GoMap K V) (fn : V → Bool) : GoMap K V :=
  dataMap.foldl (fun rmap entry => if fn entry.2 then rmap.set entry.1 entry.2 else rmap) []

/-- The Go function `Reduce`. -/
def Reduce {K V R : Type} (dataMap : GoMap K V) (fn : R → V → R) (value : R) : R :=
  dataMap.foldl (fun rv entry => fn rv entry.2) value

/-! ## The validators of `validator_test.go` -/

/-- The test validator `validateLength`; Go's `len` of a string counts bytes. -/
def validateLength : Validator String := fun v =>
  if v.utf8ByteSize > 8 then (true, none)
  else (false, some "Must be longer than 8 characters")

/-- The test validator `validatePositive`. -/
def validatePositive : Validator Int := fun v =>
  if v > 0 then (true, none)
  else (false, some "Value must be positive")

/-- The call `regexp.MatchString("^[A-Za-z]+$", s)` of the Go standard library:
the pattern always compiles, and it matches exactly the non-empty strings made
of ASCII letters only. -/
def matchAlphabetic (s : String) : Bool :=
  !s.data.isEmpty && s.data.all (fun c => ('A' ≤ c && c ≤ 'Z') || ('a' ≤ c && c ≤ 'z'))

/-- The test validator `validateCharacter`; the branch for a pattern that does
not compile is unreachable for the fixed pattern and is left out. -/
def validateCharacter : Validator String := fun s =>
  if matchAlphabetic s then (true, none)
  else (false, some "Must be an alphabetic string")

/-! ## The tables of `validator_test.go` -/

/-- The `validatorsMap` of the string cases of `TestBindValidators`. -/
def nameValidators : GoMap String (Validators String) :=
  [("name", [validateLength, validateCharacter])]

/-- The `validatorsMap` of the integer cases of `TestBindValidators`. -/
def ageValidators : GoMap String (Validators Int) :=
  [("age", [validatePositive])]

/-- The `dataMap` of the case "All fields valid" of `TestEvery`. -/
def allFieldsValid : GoMap String (ValidatedField String) :=
  [("a", { Value := "test", IsValid := true, Errors := [] }),
   ("b", { Value := "example", IsValid := true, Errors := [] })]

/-- The `dataMap` of the cases "Some fields invalid" of `TestEvery`, "At least
one valid field" of `TestSome` and "Filter out invalid fields" of `TestFilter`. -/
def someFieldsInvalid : GoMap String (ValidatedField String) :=
  [("a", { Value := "test", IsValid := false, Errors := [] }),
   ("b", { Value := "example", IsValid := true, Errors := [] })]

/-- The `dataMap` of the case "No valid fields" of `TestSome`. -/
def noValidFields : GoMap String (ValidatedField String) :=
  [("a", { Value := "fail", IsValid := false, Errors := [] }),
   ("b", { Value := "fail", IsValid := false, Errors := [] })]

/-- The `dataMap` of the case "All fields are valid" of `TestFilter` and of the
cases of `TestReduce`. -/
def helloWorldFields : GoMap String (ValidatedField String) :=
  [("a", { Value := "hello", IsValid := true, Errors := [] }),
   ("b", { Value := "world", IsValid := true, Errors := [] })]

/-- The test validator `validateEmptyString`, which fails on every value. -/
def validateEmptyString : Validator String := fun _ =>
  (false, some "Must be longer than 8 characters")

/-- The reducer of the case "Concatenate valid fields" of `TestReduce`. -/
def concatReducer (acc : String) (v : ValidatedField String) : String :=
  acc ++ v.Value

/-- The reducer of the case "Concatenate with separator" of `TestReduce`. -/
def separatorReducer (acc : String) (v : ValidatedField String) : String :=
  if acc ≠ "" then acc ++ ", " ++ v.Value else v.Value

/-- Upper-casing of the ASCII letters of a string, the callback of the `Map`
scenario. -/
def toUpperCase (s : String) : String := ⟨s.data.map Char.toUpper⟩

/-! ## Notions used to state the claims -/

/-- The entries of a map arranged in ascending key order, the order the claim
on `Reduce` speaks of. -/
def ascendingByKey {K V : Type} [LinearOrder K] (m : GoMap K V) : GoMap K V :=
  m.insertionSort (fun x y => x.1 ≤ y.1)

/-- A combining function is commutative-safe when the order in which two
values are folded into an accumulator does not matter. -/
def CommutativeSafe {V R : Type} (fn : R → V → R) : Prop :=
  ∀ (r : R) (a b : V), fn (fn r a) b = fn (fn r b) a

/-! ## Lemmas on Go maps -/

namespace GoMap

variable {K V W : Type}

theorem mem_keys_of_mem {m : GoMap K V} {e : K × V} (h : e ∈ m) : e.1 ∈ keys m :=
  List.mem_map_of_mem Prod.fst h

theorem WF_cons {e : K × V} {m : GoMap K V} (h : WF (e :: m)) : e.1 ∉ keys m ∧ WF m := by
  simpa [WF, keys] using h

variable [DecidableEq K]

theorem get?_set_self (m : GoMap K V) (k : K) (v : V) : get? (set m k v) k = some v := by
  induction m with
  | nil => simp [set, get?]
  | cons e rest ih =>
    obtain ⟨k', v'⟩ := e
    by_cases h : k' = k
    · simp [set, get?, h]
    · simp [set, get?, h, ih]

theorem get?_set_ne (m : GoMap K V) {k j : K} (v : V) (h : k ≠ j) :
    get? (set m k v) j = get? m j := by
  induction m with
  | nil => simp [set, get?, h]
  | cons e rest ih =>
    obtain ⟨k', v'⟩ := e
    by_cases h1 : k' = k
    · subst h1
      simp [set, get?, h]
    · by_cases h2 : k' = j
      · subst h2
        simp [set, get?, h1]
      · simp [set, get?, h1, h2, ih]

theorem mem_keys_set (m : GoMap K V) (k j : K) (v : V) :
    j ∈ keys (set m k v) ↔ j = k ∨ j ∈ keys m := by
  induction m with
  | nil => simp [set, keys]
  | cons e rest ih =>
    obtain ⟨k', v'⟩ := e
    by_cases h : k' = k
    · subst h
      simp [set, keys]
    · have ih2 : j ∈ List.map Prod.fst (set rest k v) ↔ j = k ∨ j ∈ List.map Prod.fst rest := ih
      simp only [set, h, if_false, keys, List.map_cons, List.mem_cons, ih2]
      tauto

theorem get?_eq_none_iff (m : GoMap K V) (k : K) : get? m k = none ↔ k ∉ keys m := by
  induction m with
  | nil => simp [get?, keys]
  | cons e rest ih =>
    obtain ⟨k', v'⟩ := e
    have ih2 : get? rest k = none ↔ k ∉ List.map Prod.fst rest := ih
    by_cases h : k' = k
    · simp [get?, keys, h]
    · have h2 : ¬ k = k' := fun e => h e.symm
      simp [get?, keys, h, h2, ih2]

theorem mem_keys_iff_get? (m : GoMap K V) (k : K) : k ∈ keys m ↔ ∃ v, get? m k = some v := by
  rw [← not_iff_not, ← get?_eq_none_iff]
  cases get? m k <;> simp

theorem mem_of_get? {m : GoMap K V} {k : K} {v : V} (h : get? m k = some v) : (k, v) ∈ m := by
  induction m with
  | nil => simp [get?] at h
  | cons e rest ih =>
    obtain ⟨k', v'⟩ := e
    by_cases h1 : k' = k
    · simp [get?, h1] at h
      simp [h1, h]
    · simp [get?, h1] at h
      exact List.mem_cons_of_mem _ (ih h)

theorem get?_of_mem {m : GoMap K V} (hwf : WF m) {k : K} {v : V} (h : (k, v) ∈ m) :
    get? m k = some v := by
  induction m with
  | nil => simp at h
  | cons e rest ih =>
    obtain ⟨k', v'⟩ := e
    have hnd : k' ∉ keys rest ∧ WF rest := by
      simpa [WF, keys] using hwf
    rcases List.mem_cons.1 h with h1 | h1
    · cases h1
      simp [get?]
    · have hk : k ∈ keys rest := mem_keys_of_mem h1
      have hne : k' ≠ k := fun e => hnd.1 (e ▸ hk)
      simp [get?, hne, ih hnd.2 h1]

theorem get?_iff_mem {m : GoMap K V} (hwf : WF m) (k : K) (v : V) :
    get? m k = some v ↔ (k, v) ∈ m :=
  ⟨mem_of_get?, get?_of_mem hwf⟩

theorem WF_set {m : GoMap K V} (hwf : WF m) (k : K) (v : V) : WF (set m k v) := by
  induction m with
  | nil => simp [set, WF, keys]
  | cons e rest ih =>
    obtain ⟨k', v'⟩ := e
    have hnd : k' ∉ keys rest ∧ WF rest := by
      simpa [WF, keys] using hwf
    by_cases h : k' = k
    · simpa [set, h, WF, keys] using hwf
    · have h3 : k' ∉ keys (set rest k v) := by
        rw [mem_keys_set]
        rintro (e | e)
        · exact h e
        · exact hnd.1 e
      have h4 : WF (set rest k v) := ih hnd.2
      simp only [set, h, if_false, WF, keys, List.map_cons, List.nodup_cons]
      exact ⟨h3, h4⟩

theorem mem_set {m : GoMap K V} {k : K} {v : V} {e : K × V} (h : e ∈ set m k v) :
    e = (k, v) ∨ e ∈ m := by
  induction m with
  | nil => simpa [set] using h
  | cons e' rest ih =>
    obtain ⟨k', v'⟩ := e'
    by_cases h1 : k' = k
    · simp only [set, h1, if_true, List.mem_cons] at h
      rcases h with h | h
      · exact Or.inl h
      · exact Or.inr (List.mem_cons_of_mem _ h)
    · simp only [set, h1, if_false, List.mem_cons] at h
      rcases h with h | h
      · exact Or.inr (h ▸ List.mem_cons_self _ _)
      · rcases ih h with h2 | h2
        · exact Or.inl h2
        · exact Or.inr (List.mem_cons_of_mem _ h2)

theorem length_set_of_not_mem {m : GoMap K V} {k : K} (h : k ∉ keys m) (v : V) :
    (set m k v).length = m.length + 1 := by
  induction m with
  | nil => simp [set]
  | cons e rest ih =>
    obtain ⟨k', v'⟩ := e
    have h1 : ¬ k = k' ∧ k ∉ keys rest := by
      simpa [keys] using h
    have h2 : ¬ k' = k := fun e => h1.1 e.symm
    simp [set, h2, ih h1.2]

/-! ### The map-building loop -/

theorem collect_nil (g : K × V → Option W) (acc : GoMap K W) : collect g acc [] = acc := rfl

theorem collect_cons (g : K × V → Option W) (acc : GoMap K W) (e : K × V) (m : GoMap K V) :
    collect g acc (e :: m)
      = collect g (match g e with
          | some w => acc.set e.1 w
          | none => acc) m := rfl

theorem collect_WF (g : K × V → Option W) (m : GoMap K V) :
    ∀ acc : GoMap K W, WF acc → WF (collect g acc m) := by
  induction m with
  | nil => intro acc h; exact h
  | cons e rest ih =>
    intro acc h
    rw [collect_cons]
    apply ih
    cases g e with
    | none => exact h
    | some w => exact WF_set h _ _

theorem collect_mem (g : K × V → Option W) (m : GoMap K V) :
    ∀ (acc : GoMap K W) (x : K × W), x ∈ collect g acc m →
      x ∈ acc ∨ ∃ e ∈ m, e.1 = x.1 ∧ g e = some x.2 := by
  induction m with
  | nil => intro acc x h; exact Or.inl h
  | cons e rest ih =>
    intro acc x h
    rw [collect_cons] at h
    rcases ih _ x h with h1 | ⟨e', he', h2⟩
    · cases hg : g e with
      | none =>
        rw [hg] at h1
        exact Or.inl h1
      | some w =>
        rw [hg] at h1
        rcases mem_set h1 with h3 | h3
        · refine Or.inr ⟨e, List.mem_cons_self _ _, ?_, ?_⟩
          · rw [h3]
          · rw [h3, hg]
        · exact Or.inl h3
    · exact Or.inr ⟨e', List.mem_cons_of_mem _ he', h2⟩

theorem collect_mem_keys (g : K × V → Option W) (m : GoMap K V) :
    ∀ (acc : GoMap K W) (k : K), k ∈ keys (collect g acc m) ↔
      k ∈ keys acc ∨ ∃ e ∈ m, e.1 = k ∧ (g e).isSome = true := by
  induction m with
  | nil => intro acc k; simp [collect_nil]
  | cons e rest ih =>
    intro acc k
    rw [collect_cons, ih]
    cases hg : g e with
    | none =>
      constructor
      · rintro (h | ⟨e', he', h1, h2⟩)
        · exact Or.inl h
        · exact Or.inr ⟨e', List.mem_cons_of_mem _ he', h1, h2⟩
      · rintro (h | ⟨e', he', h1, h2⟩)
        · exact Or.inl h
        · rcases List.mem_cons.1 he' with h3 | h3
          · rw [h3, hg] at h2
            simp at h2
          · exact Or.inr ⟨e', h3, h1, h2⟩
    | some w =>
      simp only [mem_keys_set]
      constructor
      · rintro ((h | h) | ⟨e', he', h1, h2⟩)
        · exact Or.inr ⟨e, List.mem_cons_self _ _, h.symm, by simp [hg]⟩
        · exact Or.inl h
        · exact Or.inr ⟨e', List.mem_cons_of_mem _ he', h1, h2⟩
      · rintro (h | ⟨e', he', h1, h2⟩)
        · exact Or.inl (Or.inr h)
        · rcases List.mem_cons.1 he' with h3 | h3
          · exact Or.inl (Or.inl (by rw [← h1, h3]))
          · exact Or.inr ⟨e', h3, h1, h2⟩

theorem collect_get? (g : K × V → Option W) (m : GoMap K V) (hwf : WF m) :
    ∀ (acc : GoMap K W) (k : K), get? (collect g acc m) k =
      match get? m k with
      | some v =>
        (match g (k, v) with
          | some w => some w
          | none => get? acc k)
      | none => get? acc k := by
  induction m with
  | nil => intro acc k; simp [collect_nil, get?]
  | cons e rest ih =>
    intro acc k
    obtain ⟨k', v'⟩ := e
    have hnd := WF_cons hwf
    rw [collect_cons, ih hnd.2]
    by_cases hk : k' = k
    · subst hk
      have hnone : get? rest k' = none := (get?_eq_none_iff _ _).2 hnd.1
      simp only [hnone, get?, if_true]
      cases g (k', v') with
      | none => rfl
      | some w => simp [get?_set_self]
    · have hacc : get? (match g (k', v') with
          | some w => acc.set (k', v').1 w
          | none => acc) k = get? acc k := by
        cases g (k', v') with
        | none => rfl
        | some w => exact get?_set_ne _ _ hk
      simp only [get?, hk, if_false, hacc]

theorem collect_length (g : K × V → Option W) (m : GoMap K V) (hwf : WF m) :
    ∀ (acc : GoMap K W), (∀ k ∈ keys m, k ∉ keys acc) →
      (collect g acc m).length = acc.length + m.countP (fun e => (g e).isSome) := by
  induction m with
  | nil => intro acc _; simp [collect_nil]
  | cons e rest ih =>
    intro acc hdis
    have hnd := WF_cons hwf
    have he : e.1 ∉ keys acc := hdis _ (by simp [keys])
    have hrest : ∀ k ∈ keys rest, k ∉ keys acc := fun k hk => hdis k (by
      simp only [keys, List.map_cons, List.mem_cons]
      exact Or.inr hk)
    rw [collect_cons]
    cases hg : g e with
    | none =>
      rw [ih hnd.2 acc hrest]
      simp [List.countP_cons, hg]
    | some w =>
      have hdis2 : ∀ k ∈ keys rest, k ∉ keys (acc.set e.1 w) := by
        intro k hk
        rw [mem_keys_set]
        rintro (h | h)
        · exact hnd.1 (h ▸ hk)
        · exact hrest k hk h
      rw [ih hnd.2 _ hdis2, length_set_of_not_mem he]
      simp [List.countP_cons, hg]
      omega

end GoMap

/-! ## Lemmas on the functions of `validator.go` -/

section Lemmas

variable {K T V : Type}

theorem foldl_applyStep (value : T) (validators : Validators T) :
    ∀ acc : ValidatedField T,
      validators.foldl (applyStep value) acc =
        { Value := acc.Value
          IsValid := acc.IsValid && validators.all (fun c => (c value).1)
          Errors := acc.Errors ++
            (validators.filter (fun c => !(c value).1)).map (fun c => (c value).2) } := by
  induction validators with
  | nil => intro acc; simp
  | cons c cs ih =>
    intro acc
    rw [List.foldl_cons, ih]
    cases hc : (c value).1 with
    | true =>
      have hs : applyStep value acc c = acc := by
        simp [applyStep, hc]
      simp [hs, hc]
    | false =>
      have hs : applyStep value acc c =
          { acc with IsValid := false, Errors := acc.Errors ++ [(c value).2] } := by
        simp [applyStep, hc]
      simp [hs, hc]

theorem ApplyValidators_eq (validators : Validators T) (value : T) :
    ApplyValidators validators value =
      { Value := value
        IsValid := validators.all (fun c => (c value).1)
        Errors := (validators.filter (fun c => !(c value).1)).map (fun c => (c value).2) } := by
  simp [ApplyValidators, foldl_applyStep]

theorem ApplyValidators_isValid_iff (validators : Validators T) (value : T) :
    (ApplyValidators validators value).IsValid = true ↔
      ∀ c ∈ validators, (c value).1 = true := by
  simp [ApplyValidators_eq]

theorem ApplyValidators_invariant (validators : Validators T) (value : T) :
    (ApplyValidators validators value).IsValid = true ↔
      (ApplyValidators validators value).Errors = [] := by
  simp [ApplyValidators_eq, List.filter_eq_nil_iff]

theorem Every_eq_all (m : GoMap K V) (fn : V → Bool) :
    Every m fn = m.all (fun e => fn e.2) := by
  induction m with
  | nil => rfl
  | cons e rest ih =>
    obtain ⟨k, v⟩ := e
    cases h : fn v <;> simp [Every, h, ih]

theorem Some_eq_any (m : GoMap K V) (fn : V → Bool) :
    Some m fn = m.any (fun e => fn e.2) := by
  induction m with
  | nil => rfl
  | cons e rest ih =>
    obtain ⟨k, v⟩ := e
    cases h : fn v <;> simp [Some, h, ih]

variable [DecidableEq K]

theorem BindValidators_eq_collect (validatorsMap : GoMap K (Validators T)) (dataMap : GoMap K T) :
    BindValidators validatorsMap dataMap =
      GoMap.collect (fun e => (dataMap.get? e.1).map (ApplyValidators e.2)) [] validatorsMap := by
  unfold BindValidators GoMap.collect
  congr 1
  funext r entry
  dsimp only [bindStep]
  cases dataMap.get? entry.1 <;> rfl

theorem Filter_eq_collect (dataMap : GoMap K V) (fn : V → Bool) :
    Filter dataMap fn =
      GoMap.collect (fun e => if fn e.2 then some e.2 else none) [] dataMap := by
  unfold Filter GoMap.collect
  congr 1
  funext r entry
  dsimp only
  cases fn entry.2 <;> simp

theorem BindValidators_get? (validatorsMap : GoMap K (Validators T)) (dataMap : GoMap K T)
    (hwf : GoMap.WF validatorsMap) (k : K) :
    GoMap.get? (BindValidators validatorsMap dataMap) k =
      match GoMap.get? validatorsMap k, GoMap.get? dataMap k with
      | some cs, some d => some (ApplyValidators cs d)
      | _, _ => none := by
  rw [BindValidators_eq_collect, GoMap.collect_get? _ _ hwf]
  dsimp only
  cases GoMap.get? validatorsMap k with
  | none => simp [GoMap.get?]
  | some cs =>
    cases GoMap.get? dataMap k with
    | none => simp [GoMap.get?]
    | some d => simp

theorem BindValidators_WF (validatorsMap : GoMap K (Validators T)) (dataMap : GoMap K T) :
    GoMap.WF (BindValidators validatorsMap dataMap) := by
  rw [BindValidators_eq_collect]
  exact GoMap.collect_WF _ _ _ (by simp [GoMap.WF, GoMap.keys])

theorem Filter_get? (dataMap : GoMap K V) (fn : V → Bool) (hwf : GoMap.WF dataMap) (k : K) :
    GoMap.get? (Filter dataMap fn) k = (GoMap.get? dataMap k).filter fn := by
  rw [Filter_eq_collect, GoMap.collect_get? _ _ hwf]
  dsimp only
  cases GoMap.get? dataMap k with
  | none => simp [GoMap.get?, Option.filter]
  | some v => cases h : fn v <;> simp [GoMap.get?, Option.filter, h]

theorem Filter_WF (dataMap : GoMap K V) (fn : V → Bool) : GoMap.WF (Filter dataMap fn) := by
  rw [Filter_eq_collect]
  exact GoMap.collect_WF _ _ _ (by simp [GoMap.WF, GoMap.keys])

theorem Map_eq_collect (dataMap : GoMap K V) (fn : V → V) :
    Map dataMap fn = GoMap.collect (fun e => some (fn e.2)) [] dataMap := rfl

theorem Map_get? (dataMap : GoMap K V) (fn : V → V) (hwf : GoMap.WF dataMap) (k : K) :
    GoMap.get? (Map dataMap fn) k = (GoMap.get? dataMap k).map fn := by
  rw [Map_eq_collect, GoMap.collect_get? _ _ hwf]
  cases GoMap.get? dataMap k <;> simp [GoMap.get?]

theorem BindValidators_eq_nil (validatorsMap : GoMap K (Validators T)) (dataMap : GoMap K T)
    (h : ∀ k ∈ GoMap.keys validatorsMap, k ∉ GoMap.keys dataMap) :
    BindValidators validatorsMap dataMap = [] := by
  rw [List.eq_nil_iff_forall_not_mem]
  intro x hx
  rw [BindValidators_eq_collect] at hx
  rcases GoMap.collect_mem _ _ _ _ hx with h1 | ⟨e, he, _, h2⟩
  · simp at h1
  · have hnone : GoMap.get? dataMap e.1 = none :=
      (GoMap.get?_eq_none_iff _ _).2 (h _ (GoMap.mem_keys_of_mem he))
    simp [hnone] at h2

end Lemmas

/-! ## Validator application and binding -/

section Claims

variable {K T V : Type}

/-- C1: the `Errors` of `ApplyValidators cs v` are the errors returned by the
checks of `cs` whose outcome on `v` is false, in the order of `cs`, and nothing
else; so their number is the number of failing checks. -/
theorem ApplyValidators_errors (cs : Validators T) (v : T) :
    (ApplyValidators cs v).Errors
        = (cs.filter (fun c => !(c v).1)).map (fun c => (c v).2)
      ∧ (ApplyValidators cs v).Errors.length = cs.countP (fun c => !(c v).1) := by
  have h : (ApplyValidators cs v).Errors
      = (cs.filter (fun c => !(c v).1)).map (fun c => (c v).2) := by
    rw [ApplyValidators_eq]
  refine ⟨h, ?_⟩
  rw [h, List.length_map, List.countP_eq_length_filter]

/-- C2: `ApplyValidators cs v` is valid exactly when every check of `cs` passes
on `v`, and its `Value` is `v`. -/
theorem ApplyValidators_isValid_value (cs : Validators T) (v : T) :
    ((ApplyValidators cs v).IsValid = true ↔ ∀ c ∈ cs, (c v).1 = true)
      ∧ (ApplyValidators cs v).Value = v := by
  refine ⟨ApplyValidators_isValid_iff cs v, ?_⟩
  rw [ApplyValidators_eq]

/-- C3: every result of `ApplyValidators` is valid exactly when its error list
is empty, whatever the checks return, and so is the field of every entry of
every map produced by a function made by `BindValidators`. -/
theorem valid_iff_no_errors [DecidableEq K] :
    (∀ (cs : Validators T) (v : T),
        (ApplyValidators cs v).IsValid = true ↔ (ApplyValidators cs v).Errors = [])
      ∧ (∀ (C : GoMap K (Validators T)) (D : GoMap K T),
          ∀ e ∈ BindValidators C D, e.2.IsValid = true ↔ e.2.Errors = []) := by
  refine ⟨ApplyValidators_invariant, ?_⟩
  intro C D e he
  rw [BindValidators_eq_collect] at he
  rcases GoMap.collect_mem _ _ _ _ he with h | ⟨x, _, _, hx⟩
  · simp at h
  · cases hd : GoMap.get? D x.1 with
    | none => simp [hd] at hx
    | some d =>
      simp only [hd, Option.map_some', Option.some.injEq] at hx
      rw [← hx]
      exact ApplyValidators_invariant _ _

/-- The invariant of C3 on the two corner cases: a check failing with a `nil`
error gives an invalid field with one (nil) error, and a check passing with an
error gives a valid field without errors. -/
theorem valid_iff_no_errors_witness :
    ApplyValidators [fun _ => (false, none)] (0 : Int)
        = { Value := 0, IsValid := false, Errors := [none] }
      ∧ ApplyValidators [fun _ => (true, some "ignored")] (0 : Int)
        = { Value := 0, IsValid := true, Errors := [] }
      ∧ ((ApplyValidators [fun _ => (false, none)] (0 : Int)).IsValid = true
          ↔ (ApplyValidators [fun _ => (false, none)] (0 : Int)).Errors = [])
      ∧ (∀ e ∈ BindValidators [("age", [fun _ => (false, none)])] [("age", (0 : Int))],
          e.2.IsValid = true ↔ e.2.Errors = []) :=
  ⟨by decide, by decide,
    (valid_iff_no_errors (K := String)).1 _ _,
    (valid_iff_no_errors (K := String)).2 _ _⟩

/-- C4: the keys of `BindValidators C D` are exactly the keys that `C` and `D`
have in common. -/
theorem BindValidators_keys [DecidableEq K] (C : GoMap K (Validators T)) (D : GoMap K T)
    (k : K) :
    k ∈ GoMap.keys (BindValidators C D) ↔ k ∈ GoMap.keys C ∧ k ∈ GoMap.keys D := by
  rw [BindValidators_eq_collect, GoMap.collect_mem_keys]
  constructor
  · rintro (h | ⟨e, he, h1, h2⟩)
    · simp [GoMap.keys] at h
    · refine ⟨h1 ▸ GoMap.mem_keys_of_mem he, ?_⟩
      rw [GoMap.mem_keys_iff_get?, ← h1]
      cases hd : GoMap.get? D e.1 with
      | none => simp [hd] at h2
      | some d => exact ⟨d, rfl⟩
  · rintro ⟨hC, hD⟩
    obtain ⟨e, he, h1⟩ := List.mem_map.1 hC
    obtain ⟨d, hd⟩ := (GoMap.mem_keys_iff_get? _ _).1 hD
    refine Or.inr ⟨e, he, h1, ?_⟩
    dsimp only
    rw [h1, hd]
    rfl

/-- C5: at a key `k` of both maps the entry of `BindValidators C D` is
`ApplyValidators` of the checks and the value stored at `k`; hence it is the
same for any other pair of maps that agree with `C` and `D` at `k`. -/
theorem BindValidators_entry [DecidableEq K] (C : GoMap K (Validators T)) (D : GoMap K T)
    (k : K) (cs : Validators T) (d : T)
    (hC : GoMap.WF C) (hcs : GoMap.get? C k = some cs) (hd : GoMap.get? D k = some d) :
    GoMap.get? (BindValidators C D) k = some (ApplyValidators cs d)
      ∧ ∀ (C' : GoMap K (Validators T)) (D' : GoMap K T), GoMap.WF C' →
          GoMap.get? C' k = some cs → GoMap.get? D' k = some d →
          GoMap.get? (BindValidators C' D') k = GoMap.get? (BindValidators C D) k := by
  have h : ∀ (C' : GoMap K (Validators T)) (D' : GoMap K T), GoMap.WF C' →
      GoMap.get? C' k = some cs → GoMap.get? D' k = some d →
      GoMap.get? (BindValidators C' D') k = some (ApplyValidators cs d) := by
    intro C' D' hwf h1 h2
    rw [BindValidators_get? _ _ hwf, h1, h2]
  exact ⟨h C D hC hcs hd, fun C' D' hwf h1 h2 => (h C' D' hwf h1 h2).trans (h C D hC hcs hd).symm⟩

/-- C5 at the fields `name` and `age`: the failing `age` leaves the entry of
`name` equal to what `ApplyValidators` gives for `name` alone. -/
theorem BindValidators_entry_witness :
    GoMap.get? (BindValidators
        [("name", [fun (v : Int) => (decide (v > 10), some "name")]),
         ("age", [fun (v : Int) => (decide (v > 0), some "age")])]
        [("age", -1), ("name", 30)]) "name"
      = some { Value := 30, IsValid := true, Errors := [] } :=
  (BindValidators_entry
    [("name", [fun (v : Int) => (decide (v > 10), some "name")]),
     ("age", [fun (v : Int) => (decide (v > 0), some "age")])]
    [("age", -1), ("name", 30)] "name" [fun (v : Int) => (decide (v > 10), some "name")] 30
    (by decide) rfl rfl).1

/-- C6: the all-fields-valid check on the bound result, in whatever order the
result is enumerated, holds exactly when at every key of both `C` and `D` every
check configured for the key passes on the value supplied for it. -/
theorem BindValidators_every [DecidableEq K] (C : GoMap K (Validators T)) (D : GoMap K T)
    (R : GoMap K (ValidatedField T)) (hC : GoMap.WF C) (hR : R.Perm (BindValidators C D)) :
    Every R (fun field => field.IsValid) = true ↔
      ∀ (k : K) (cs : Validators T) (d : T),
        GoMap.get? C k = some cs → GoMap.get? D k = some d → ∀ c ∈ cs, (c d).1 = true := by
  rw [Every_eq_all, List.all_eq_true]
  constructor
  · intro h k cs d hcs hd
    have hget : GoMap.get? (BindValidators C D) k = some (ApplyValidators cs d) := by
      rw [BindValidators_get? _ _ hC, hcs, hd]
    have hmem : (k, ApplyValidators cs d) ∈ R := hR.mem_iff.2 (GoMap.mem_of_get? hget)
    exact (ApplyValidators_isValid_iff cs d).1 (h _ hmem)
  · intro h e he
    have hmem : (e.1, e.2) ∈ BindValidators C D := hR.mem_iff.1 he
    have hget := GoMap.get?_of_mem (BindValidators_WF C D) hmem
    rw [BindValidators_get? _ _ hC] at hget
    cases hcs : GoMap.get? C e.1 with
    | none => simp [hcs] at hget
    | some cs =>
      cases hd : GoMap.get? D e.1 with
      | none => simp [hcs, hd] at hget
      | some d =>
        simp only [hcs, hd, Option.some.injEq] at hget
        show e.2.IsValid = true
        rw [← hget]
        exact (ApplyValidators_isValid_iff cs d).2 (h e.1 cs d hcs hd)

/-- The five cases of `TestBindValidators`, and C6 at the first of them. -/
theorem BindValidators_every_witness :
    Every (BindValidators nameValidators [("name", "helloWorld")])
        (fun field => field.IsValid) = true
      ∧ Every (BindValidators nameValidators [("name", "hell")])
        (fun field => field.IsValid) = false
      ∧ Every (BindValidators nameValidators [("name", "hellowor8d")])
        (fun field => field.IsValid) = false
      ∧ Every (BindValidators ageValidators [("age", 30)])
        (fun field => field.IsValid) = true
      ∧ Every (BindValidators ageValidators [("age", -1)])
        (fun field => field.IsValid) = false
      ∧ ∀ (k : String) (cs : Validators String) (d : String),
          GoMap.get? nameValidators k = some cs →
          GoMap.get? [("name", "helloWorld")] k = some d → ∀ c ∈ cs, (c d).1 = true :=
  ⟨by decide, by decide, by decide, by decide, by decide,
    (BindValidators_every nameValidators [("name", "helloWorld")]
      (BindValidators nameValidators [("name", "helloWorld")])
      (by decide) (List.Perm.refl _)).1 (by decide)⟩

/-! ## The map helpers -/

/-- C7: `Every M fn` is true exactly when `fn` holds of the value of every
entry of `M`; it is the same for every enumeration order of the entries, and
it is true on the empty map. -/
theorem Every_iff (M : GoMap K V) (fn : V → Bool) :
    (Every M fn = true ↔ ∀ e ∈ M, fn e.2 = true)
      ∧ (∀ M' : GoMap K V, M'.Perm M → Every M' fn = Every M fn)
      ∧ Every ([] : GoMap K V) fn = true := by
  refine ⟨?_, ?_, rfl⟩
  · rw [Every_eq_all, List.all_eq_true]
  · intro M' hp
    rw [Bool.eq_iff_iff, Every_eq_all, Every_eq_all, List.all_eq_true, List.all_eq_true]
    exact ⟨fun h e he => h e (hp.mem_iff.2 he), fun h e he => h e (hp.mem_iff.1 he)⟩

/-- The two cases of `TestEvery`, the second one also in the other
enumeration order. -/
theorem Every_iff_witness :
    Every allFieldsValid (fun v => v.IsValid) = true
      ∧ Every someFieldsInvalid (fun v => v.IsValid) = false
      ∧ Every someFieldsInvalid.reverse (fun v => v.IsValid) = false :=
  ⟨by decide, by decide,
    ((Every_iff someFieldsInvalid (fun v => v.IsValid)).2.1 someFieldsInvalid.reverse
      (List.reverse_perm _)).trans (by decide)⟩

/-- C8: `Some M fn` is true exactly when `fn` holds of the value of at least
one entry of `M`; it is the same for every enumeration order of the entries,
and it is false on the empty map. -/
theorem Some_iff (M : GoMap K V) (fn : V → Bool) :
    (Some M fn = true ↔ ∃ e ∈ M, fn e.2 = true)
      ∧ (∀ M' : GoMap K V, M'.Perm M → Some M' fn = Some M fn)
      ∧ Some ([] : GoMap K V) fn = false := by
  refine ⟨?_, ?_, rfl⟩
  · rw [Some_eq_any, List.any_eq_true]
  · intro M' hp
    rw [Bool.eq_iff_iff, Some_eq_any, Some_eq_any, List.any_eq_true, List.any_eq_true]
    exact ⟨fun ⟨e, he, h⟩ => ⟨e, hp.mem_iff.1 he, h⟩, fun ⟨e, he, h⟩ => ⟨e, hp.mem_iff.2 he, h⟩⟩

/-- The two cases of `TestSome`, the first one also in the other
enumeration order. -/
theorem Some_iff_witness :
    Some someFieldsInvalid (fun v => v.IsValid) = true
      ∧ Some noValidFields (fun v => v.IsValid) = false
      ∧ Some someFieldsInvalid.reverse (fun v => v.IsValid) = true :=
  ⟨by decide, by decide,
    ((Some_iff someFieldsInvalid (fun v => v.IsValid)).2.1 someFieldsInvalid.reverse
      (List.reverse_perm _)).trans (by decide)⟩

/-- C9: `Filter M fn` is the sub-map of `M` on the entries whose value satisfies
`fn`: its keys are the keys of `M` whose value satisfies `fn`, it stores at each
of them the value `M` stores, and so every value in it satisfies `fn`. -/
theorem Filter_submap [DecidableEq K] (M : GoMap K V) (fn : V → Bool) (hM : GoMap.WF M) :
    (∀ k : K, k ∈ GoMap.keys (Filter M fn) ↔ ∃ v, GoMap.get? M k = some v ∧ fn v = true)
      ∧ (∀ (k : K) (v : V),
          GoMap.get? (Filter M fn) k = some v ↔ GoMap.get? M k = some v ∧ fn v = true)
      ∧ (∀ e ∈ Filter M fn, fn e.2 = true) := by
  have hget : ∀ (k : K) (v : V),
      GoMap.get? (Filter M fn) k = some v ↔ GoMap.get? M k = some v ∧ fn v = true := by
    intro k v
    rw [Filter_get? _ _ hM]
    cases GoMap.get? M k with
    | none => simp [Option.filter]
    | some w =>
      by_cases hw : fn w = true
      · simp only [Option.filter, hw, if_true, Option.some.injEq]
        constructor
        · intro h
          exact ⟨h, h ▸ hw⟩
        · exact fun h => h.1
      · simp only [Option.filter, hw, if_false, Option.some.injEq]
        constructor
        · intro h
          cases h
        · rintro ⟨h1, h2⟩
          exact absurd (h1 ▸ h2) hw
  refine ⟨?_, hget, ?_⟩
  · intro k
    rw [GoMap.mem_keys_iff_get?]
    exact ⟨fun ⟨v, h⟩ => ⟨v, (hget k v).1 h⟩, fun ⟨v, h⟩ => ⟨v, (hget k v).2 h⟩⟩
  · intro e he
    have h := GoMap.get?_of_mem (Filter_WF M fn) (show (e.1, e.2) ∈ Filter M fn from he)
    exact ((hget e.1 e.2).1 h).2

/-- C9 on the first map of `TestFilter`: the valid field `b` is kept with its
value, and the invalid field `a` is gone. -/
theorem Filter_submap_witness :
    GoMap.get? (Filter someFieldsInvalid (fun v => v.IsValid)) "b"
        = some { Value := "example", IsValid := true, Errors := [] }
      ∧ "a" ∉ GoMap.keys (Filter someFieldsInvalid (fun v => v.IsValid)) :=
  ⟨((Filter_submap someFieldsInvalid (fun v => v.IsValid) (by decide)).2.1 "b" _).2
      ⟨by decide, rfl⟩,
    by decide⟩

/-- C10: the number of entries of `Filter M fn` is the number of entries of `M`
whose value satisfies `fn`. -/
theorem Filter_len [DecidableEq K] (M : GoMap K V) (fn : V → Bool) (hM : GoMap.WF M) :
    GoMap.len (Filter M fn) = M.countP (fun e => fn e.2) := by
  unfold GoMap.len
  rw [Filter_eq_collect, GoMap.collect_length _ _ hM [] (by simp [GoMap.keys])]
  simp only [List.length_nil, Nat.zero_add]
  congr 1
  funext e
  cases fn e.2 <;> simp

/-- The two cases of `TestFilter`: sizes 1 and 2. -/
theorem Filter_len_witness :
    GoMap.len (Filter someFieldsInvalid (fun v => v.IsValid)) = 1
      ∧ GoMap.len (Filter helloWorldFields (fun v => v.IsValid)) = 2 :=
  ⟨(Filter_len someFieldsInvalid (fun v => v.IsValid) (by decide)).trans (by decide),
    (Filter_len helloWorldFields (fun v => v.IsValid) (by decide)).trans (by decide)⟩

/-- C11: `Map M fn` has the keys of `M` and stores at each of them `fn` of the
value that `M` stores there. -/
theorem Map_keys_values [DecidableEq K] (M : GoMap K V) (fn : V → V) (hM : GoMap.WF M) :
    (∀ k : K, k ∈ GoMap.keys (Map M fn) ↔ k ∈ GoMap.keys M)
      ∧ (∀ (k : K) (v : V), GoMap.get? M k = some v → GoMap.get? (Map M fn) k = some (fn v))
      ∧ (∀ k : K, GoMap.get? (Map M fn) k = (GoMap.get? M k).map fn) := by
  have hget : ∀ k : K, GoMap.get? (Map M fn) k = (GoMap.get? M k).map fn :=
    fun k => Map_get? M fn hM k
  refine ⟨?_, ?_, hget⟩
  · intro k
    rw [GoMap.mem_keys_iff_get?, GoMap.mem_keys_iff_get?, hget]
    cases GoMap.get? M k <;> simp
  · intro k v hv
    rw [hget, hv]
    rfl

/-- The `Map` scenario: upper-casing the values of `a: test, b: example`. -/
theorem Map_keys_values_witness :
    Map [("a", "test"), ("b", "example")] toUpperCase = [("a", "TEST"), ("b", "EXAMPLE")]
      ∧ GoMap.get? (Map [("a", "test"), ("b", "example")] toUpperCase) "b" = some "EXAMPLE" :=
  ⟨by decide,
    ((Map_keys_values [("a", "test"), ("b", "example")] toUpperCase (by decide)).2.1
      "b" "example" (by decide)).trans (by decide)⟩

/-- C12 fails on the code: the map of `TestReduce` is well formed in the run
that enumerates `b` before `a`, and there `Reduce` returns `worldhello` for the
concatenating reducer and `world, hello` for the separator reducer, whereas the
fold in ascending key order, which the claim states and `TestReduce` expects,
gives `helloworld` and `hello, world`. -/
theorem Reduce_enumerated_b_first :
    GoMap.WF helloWorldFields.reverse
      ∧ helloWorldFields.reverse.Perm helloWorldFields
      ∧ Reduce helloWorldFields.reverse concatReducer "" = "worldhello"
      ∧ Reduce helloWorldFields.reverse separatorReducer "" = "world, hello"
      ∧ List.foldl concatReducer ""
          ((ascendingByKey helloWorldFields.reverse).map Prod.snd) = "helloworld"
      ∧ List.foldl separatorReducer ""
          ((ascendingByKey helloWorldFields.reverse).map Prod.snd) = "hello, world"
      ∧ Reduce helloWorldFields.reverse concatReducer ""
          ≠ List.foldl concatReducer ""
              ((ascendingByKey helloWorldFields.reverse).map Prod.snd)
      ∧ Reduce helloWorldFields.reverse separatorReducer ""
          ≠ List.foldl separatorReducer ""
              ((ascendingByKey helloWorldFields.reverse).map Prod.snd) := by
  have hle : ¬ ("b" : String) ≤ "a" := by
    rw [String.le_iff_toList_le]
    decide
  have hsort : ascendingByKey helloWorldFields.reverse = helloWorldFields := by
    simp [ascendingByKey, helloWorldFields, List.insertionSort, List.orderedInsert, hle]
  rw [hsort]
  exact ⟨by decide, List.reverse_perm _, by decide, by decide, by decide, by decide,
    by decide, by decide⟩

/-- C13: for a commutative-safe combining function the result of `Reduce` is
the same for every order in which the entries of the map are enumerated. -/
theorem Reduce_order_independent {R : Type} (fn : R → V → R) (hfn : CommutativeSafe fn)
    (M M' : GoMap K V) (hp : M'.Perm M) (init : R) :
    Reduce M' fn init = Reduce M fn init := by
  unfold Reduce
  exact hp.foldl_eq' (fun x _ y _ z => hfn z x.2 y.2) init

/-- C13 for the reducer that adds up the byte lengths of the values, on the map
of `TestReduce` in both enumeration orders. -/
theorem Reduce_order_independent_witness :
    Reduce helloWorldFields.reverse
        (fun (acc : Nat) (v : ValidatedField String) => acc + v.Value.utf8ByteSize) 0
      = Reduce helloWorldFields
        (fun (acc : Nat) (v : ValidatedField String) => acc + v.Value.utf8ByteSize) 0 :=
  Reduce_order_independent
    (fun (acc : Nat) (v : ValidatedField String) => acc + v.Value.utf8ByteSize)
    (fun r _ _ => Nat.add_right_comm r _ _)
    helloWorldFields helloWorldFields.reverse (List.reverse_perm _) 0

/-- C14: `Reduce` over the empty map returns the initial accumulator. -/
theorem Reduce_empty {R : Type} (fn : R → V → R) (init : R) :
    Reduce ([] : GoMap K V) fn init = init := rfl

/-- C15: `ApplyValidators` on the empty check sequence returns the value, valid,
without errors. -/
theorem ApplyValidators_empty (v : T) :
    ApplyValidators ([] : Validators T) v = { Value := v, IsValid := true, Errors := [] } := rfl

/-- C16: the scenario with the checks `validateLength` and `validateCharacter`
on the values `helloWorld`, `hell` and `hellowor8d`. -/
theorem ApplyValidators_scenario :
    ApplyValidators [validateLength, validateCharacter] "helloWorld"
        = { Value := "helloWorld", IsValid := true, Errors := [] }
      ∧ ApplyValidators [validateLength, validateCharacter] "hell"
        = { Value := "hell", IsValid := false,
            Errors := [some "Must be longer than 8 characters"] }
      ∧ ApplyValidators [validateLength, validateCharacter] "hellowor8d"
        = { Value := "hellowor8d", IsValid := false,
            Errors := [some "Must be an alphabetic string"] } :=
  ⟨by decide, by decide, by decide⟩

/-- C17: when no key of `C` is a key of `D`, the bound result is the empty map
and the all-fields-valid check on it is true, whatever the checks of `C` do. -/
theorem BindValidators_absent_fields [DecidableEq K] (C : GoMap K (Validators T))
    (D : GoMap K T) (h : ∀ k ∈ GoMap.keys C, k ∉ GoMap.keys D) :
    BindValidators C D = []
      ∧ Every (BindValidators C D) (fun field => field.IsValid) = true := by
  have hnil := BindValidators_eq_nil C D h
  refine ⟨hnil, ?_⟩
  rw [hnil]
  rfl

/-- C17 with a check that fails on every value: on the empty data map, and on
a data map that only has another field, the result is empty and passes as valid. -/
theorem BindValidators_absent_fields_witness :
    (BindValidators [("name", [validateEmptyString])] ([] : GoMap String String) = []
        ∧ Every (BindValidators [("name", [validateEmptyString])] ([] : GoMap String String))
            (fun field => field.IsValid) = true)
      ∧ (BindValidators [("name", [validateEmptyString])] [("nickname", "hell")] = []
        ∧ Every (BindValidators [("name", [validateEmptyString])] [("nickname", "hell")])
            (fun field => field.IsValid) = true) :=
  ⟨BindValidators_absent_fields [("name", [validateEmptyString])] [] (by decide),
    BindValidators_absent_fields [("name", [validateEmptyString])] [("nickname", "hell")]
      (by decide)⟩

/-- C18: `ApplyValidators` on a concatenation of check sequences is valid when
both parts are, and its errors are those of the first part followed by those
of the second. -/
theorem ApplyValidators_append (xs ys : Validators T) (v : T) :
    (ApplyValidators (xs ++ ys) v).IsValid
        = ((ApplyValidators xs v).IsValid && (ApplyValidators ys v).IsValid)
      ∧ (ApplyValidators (xs ++ ys) v).Errors
        = (ApplyValidators xs v).Errors ++ (ApplyValidators ys v).Errors := by
  simp only [ApplyValidators_eq, List.all_append, List.filter_append, List.map_append,
    and_self]

/-- C19: `Every` and `Some` are De Morgan duals of each other. -/
theorem Every_Some_dual (M : GoMap K V) (fn : V → Bool) :
    Every M fn = !Some M (fun v => !fn v)
      ∧ Some M fn = !Every M (fun v => !fn v) := by
  induction M with
  | nil => exact ⟨rfl, rfl⟩
  | cons e rest ih =>
    obtain ⟨k, v⟩ := e
    cases h : fn v <;> simp [Every, Some, h, ih.1, ih.2]

end Claims

end GenericValidator
